import Mathlib

/-!
Verification of the argument-parsing core of `cached-nix-shell`
(`src/args.rs`): short-option cluster expansion (`get_next_arg`) and
the flag classifier (`Args::parse`).

Tokens (`OsString` values in the source) are modelled as lists of byte
values (`List Nat`); queues (`VecDeque<OsString>`) as `List Token` with
the head playing the role of the deque front.  The parsing loop is
modelled with an explicit fuel argument so that every definition stays
executable; the fuel is instantiated with a measure that is proved
sufficient, and fuel-irrelevance lemmas recover the loop equations.
-/

namespace CachedNixShell

/-- A command-line token: the byte sequence of an `OsString`. -/
abbrev Token := List Nat

/-- Byte sequence of an ASCII string literal, for stating concrete facts. -/
def tok (s : String) : Token := s.toList.map Char.toNat

/-- `fn is_alpha(b: u8) -> bool { b'a' <= b && b <= b'z' || b'A' <= b && b <= b'Z' }` -/
def is_alpha (b : Nat) : Bool :=
  (97 ≤ b && b ≤ 122) || (65 ≤ b && b ≤ 90)

/-- `Iterator::position`: index of the first element satisfying `p`. -/
def position (p : Nat → Bool) : List Nat → Option Nat
  | [] => none
  | b :: l => if p b then some 0 else (position p l).map (· + 1)

/-- The split index computed inside `get_next_arg`:
`argb[1..].iter().position(|&b| !is_alpha(b)).unwrap_or(argb.len() - 1)`. -/
def splitIdx (argb : Token) : Nat :=
  match position (fun b => !is_alpha b) (argb.drop 1) with
  | some i => i
  | none => argb.length - 1

/-- `fn get_next_arg(it: &mut VecDeque<OsString>) -> Option<OsString>`:
pop the front token; if it is a short-option cluster
(`len > 2 && argb[0] == b'-' && is_alpha(argb[1])`), split it at
`splitIdx`, push the non-empty remainder and then each letter (as `-c`,
in reverse) back onto the front, and pop again.  Returned as the popped
token together with the remaining queue. -/
def get_next_arg (it : List Token) : Option (Token × List Token) :=
  match it with
  | [] => none
  | arg :: it0 =>
    if 2 < arg.length ∧ arg.getD 0 0 = 45 ∧ is_alpha (arg.getD 1 0) = true then
      let letters := (arg.drop 1).take (splitIdx arg)
      let suffix := (arg.drop 1).drop (splitIdx arg)
      let it1 := if suffix.length ≠ 0 then suffix :: it0 else it0
      let it2 := letters.map (fun c => [45, c]) ++ it1
      match it2 with
      | [] => none
      | x :: xs => some (x, xs)
    else
      some (arg, it0)

/-- Termination measure for the expansion queue: clusters shrink it. -/
def qMeasure (it : List Token) : Nat :=
  (it.map (fun t => 2 ^ t.length)).sum

/-- Fuelled version of the test helper `expand`: repeatedly call
`get_next_arg` and collect the yielded tokens. -/
def expandAllF : Nat → List Token → List Token
  | 0, _ => []
  | fuel + 1, it =>
    match get_next_arg it with
    | none => []
    | some (arg, it') => arg :: expandAllF fuel it'

/-- `fn expand(arg: &str) -> Vec<String>` generalized to a whole queue:
drain the queue through `get_next_arg`, collecting every yielded token. -/
def expandAll (it : List Token) : List Token :=
  expandAllF (qMeasure it) it

/-- `enum RunMode` from `src/args.rs`. -/
inductive RunMode where
  /-- no arg -/
  | InteractiveShell : RunMode
  /-- `--run CMD | --command CMD` -/
  | Shell (cmd : Token) : RunMode
  /-- `--exec CMD ARGS...` -/
  | Exec (cmd : Token) (args : List Token) : RunMode
deriving DecidableEq, Repr

/-- `struct Args` from `src/args.rs`. -/
structure Args where
  /-- true: `-p | --packages` -/
  packages : Bool
  /-- true: `--pure`; false: `--impure` -/
  pure : Bool
  /-- `-i` (in shebang) -/
  interpreter : Token
  /-- `--run | --command | --exec` (not in shebang) -/
  run : RunMode
  /-- other positional arguments -/
  rest : List Token
  /-- other keyword arguments -/
  other_kw : List Token
deriving DecidableEq, Repr

/-- The two `format!` templates through which `Args::parse` can fail,
modelled structurally so that each error carries the offending token. -/
inductive ParseError where
  /-- `format!("flag {:?} requires more arguments", arg)` -/
  | requiresMore (arg : Token) : ParseError
  /-- `format!("unexpected arg {:?}", arg)` -/
  | unexpectedArg (arg : Token) : ParseError
deriving DecidableEq, Repr

/-- The message string produced by an error (`{:?}` on an ASCII
`OsString` prints it in double quotes). -/
def ParseError.render : ParseError → String
  | .requiresMore arg =>
    "flag \x22" ++ String.mk (arg.map Char.ofNat) ++ "\x22 requires more arguments"
  | .unexpectedArg arg =>
    "unexpected arg \x22" ++ String.mk (arg.map Char.ofNat) ++ "\x22"

/-- Outcome of one iteration of the `while let` loop in `Args::parse`:
either `break` with a final result (the `--exec` arm) or continue with
the updated result and the remaining queue. -/
inductive StepOut where
  | done (res : Args) : StepOut
  | cont (res : Args) (it : List Token) : StepOut
deriving DecidableEq, Repr

/-- The body of the `while let` loop of `Args::parse`: the `if`/`else`
chain dispatching on the token `arg` yielded by `get_next_arg`, with
`it` the queue left after that call (from which `next()` pops values). -/
def parseStep (in_shebang : Bool) (res : Args) (arg : Token) (it : List Token) :
    Except ParseError StepOut :=
  if arg = tok "--attr" ∨ arg = tok "-A" then
    match it with
    | [] => .error (.requiresMore arg)
    | v :: it2 => .ok (.cont { res with other_kw := res.other_kw ++ [tok "-A", v] } it2)
  else if arg = tok "-I" then
    match it with
    | [] => .error (.requiresMore arg)
    | v :: it2 => .ok (.cont { res with other_kw := res.other_kw ++ [tok "-I", v] } it2)
  else if arg = tok "--arg" then
    match it with
    | v1 :: v2 :: it2 =>
      .ok (.cont { res with other_kw := res.other_kw ++ [tok "--arg", v1, v2] } it2)
    | _ => .error (.requiresMore arg)
  else if arg = tok "--argstr" then
    match it with
    | v1 :: v2 :: it2 =>
      .ok (.cont { res with other_kw := res.other_kw ++ [tok "--argstr", v1, v2] } it2)
    | _ => .error (.requiresMore arg)
  else if arg = tok "--option" then
    match it with
    | v1 :: v2 :: it2 =>
      .ok (.cont { res with other_kw := res.other_kw ++ [tok "--option", v1, v2] } it2)
    | _ => .error (.requiresMore arg)
  else if arg = tok "-j" ∨ arg = tok "--max-jobs" then
    match it with
    | [] => .error (.requiresMore arg)
    | v :: it2 => .ok (.cont { res with other_kw := res.other_kw ++ [tok "--max-jobs", v] } it2)
  else if arg = tok "--pure" then
    .ok (.cont { res with pure := true } it)
  else if arg = tok "--impure" then
    .ok (.cont { res with pure := false } it)
  else if arg = tok "--packages" ∨ arg = tok "-p" then
    .ok (.cont { res with packages := true } it)
  else if arg = tok "-i" ∧ in_shebang = true then
    match it with
    | [] => .error (.requiresMore arg)
    | v :: it2 => .ok (.cont { res with interpreter := v } it2)
  else if (arg = tok "--run" ∨ arg = tok "--command") ∧ in_shebang = false then
    match it with
    | [] => .error (.requiresMore arg)
    | v :: it2 => .ok (.cont { res with run := .Shell v } it2)
  else if arg = tok "--exec" ∧ in_shebang = false then
    match it with
    | [] => .error (.requiresMore arg)
    | v :: it2 => .ok (.done { res with run := .Exec v it2 })
  else if arg.head? = some 45 then
    .error (.unexpectedArg arg)
  else
    .ok (.cont { res with rest := res.rest ++ [arg] } it)

/-- Fuelled `while let Some(arg) = get_next_arg(&mut it)` loop of
`Args::parse`. -/
def parseLoopF (in_shebang : Bool) : Nat → Args → List Token → Except ParseError Args
  | 0, res, _ => .ok res
  | fuel + 1, res, it =>
    match get_next_arg it with
    | none => .ok res
    | some (arg, it') =>
      match parseStep in_shebang res arg it' with
      | .error e => .error e
      | .ok (.done r) => .ok r
      | .ok (.cont r it2) => parseLoopF in_shebang fuel r it2

/-- The initial `res` value constructed at the top of `Args::parse`. -/
def initArgs : Args :=
  { packages := false
    pure := false
    interpreter := tok "bash"
    run := .InteractiveShell
    rest := []
    other_kw := [] }

/-- The parsing loop started on an arbitrary intermediate state. -/
def parseLoop (in_shebang : Bool) (res : Args) (it : List Token) : Except ParseError Args :=
  parseLoopF in_shebang (qMeasure it) res it

/-- `pub fn parse(args: Vec<OsString>, in_shebang: bool) -> Result<Args, String>`. -/
def Args.parse (args : List Token) (in_shebang : Bool) : Except ParseError Args :=
  parseLoop in_shebang initArgs args

/-! ### Measure infrastructure -/

theorem qMeasure_nil : qMeasure [] = 0 := rfl

theorem qMeasure_cons (t : Token) (l : List Token) :
    qMeasure (t :: l) = 2 ^ t.length + qMeasure l := by
  simp [qMeasure]

theorem qMeasure_append (a b : List Token) :
    qMeasure (a ++ b) = qMeasure a + qMeasure b := by
  simp [qMeasure]

theorem qMeasure_pos {it : List Token} (h : it ≠ []) : 0 < qMeasure it := by
  cases it with
  | nil => exact absurd rfl h
  | cons t l =>
    rw [qMeasure_cons]
    exact Nat.lt_of_lt_of_le (pow_pos (by norm_num) _) (Nat.le_add_right _ _)

theorem qMeasure_map_letter (l : List Nat) :
    qMeasure (l.map (fun c => [45, c])) = 4 * l.length := by
  induction l with
  | nil => rfl
  | cons c cs ih =>
    have h4 : (2 : Nat) ^ ([45, c] : Token).length = 4 := rfl
    rw [List.map_cons, qMeasure_cons, ih, h4, List.length_cons]
    ring

theorem four_mul_add_two_pow_lt (m s : Nat) : 4 * m + 2 ^ s < 2 ^ (m + s + 2) := by
  induction m with
  | zero =>
    have h : 0 < 2 ^ s := pow_pos (by norm_num) s
    calc 4 * 0 + 2 ^ s = 2 ^ s := by ring
    _ < 4 * 2 ^ s := by omega
    _ = 2 ^ (0 + s + 2) := by rw [pow_add, pow_add]; ring
  | succ m ih =>
    have h4 : 4 ≤ 2 ^ (m + s + 2) := by
      calc (4 : Nat) = 2 ^ 2 := by norm_num
      _ ≤ 2 ^ (m + s + 2) := Nat.pow_le_pow_right (by norm_num) (by omega)
    calc 4 * (m + 1) + 2 ^ s = (4 * m + 2 ^ s) + 4 := by ring
    _ < 2 ^ (m + s + 2) + 2 ^ (m + s + 2) := by omega
    _ = 2 ^ (m + 1 + s + 2) := by rw [← two_mul, ← pow_succ']; ring_nf
    _ = 2 ^ (m + 1 + (s + 2)) := by ring_nf

/-! ### `position` and `splitIdx` facts -/

theorem position_some_lt {p : Nat → Bool} :
    ∀ {l : List Nat} {i : Nat}, position p l = some i → i < l.length := by
  intro l
  induction l with
  | nil => intro i h; simp [position] at h
  | cons b l ih =>
    intro i h
    simp only [position] at h
    by_cases hb : p b
    · rw [if_pos hb] at h
      cases h
      simp
    · rw [if_neg hb] at h
      cases hj : position p l with
      | none => rw [hj] at h; simp at h
      | some j =>
        rw [hj] at h
        simp only [Option.map_some'] at h
        cases h
        have := ih hj
        simp
        omega

theorem position_cons_of_not {p : Nat → Bool} {b : Nat} (l : List Nat) (hb : p b = false) :
    position p (b :: l) = (position p l).map (· + 1) := by
  simp [position, hb]

theorem position_eq_none_of_all {p : Nat → Bool} :
    ∀ {l : List Nat}, (∀ x ∈ l, p x = false) → position p l = none := by
  intro l
  induction l with
  | nil => intro _; rfl
  | cons b l ih =>
    intro h
    have hb : p b = false := h b (List.mem_cons_self _ _)
    rw [position_cons_of_not l hb, ih (fun x hx => h x (List.mem_cons_of_mem _ hx))]
    rfl

theorem splitIdx_pos {a : Token} (hlen : 2 < a.length)
    (halpha : is_alpha (a.getD 1 0) = true) : 1 ≤ splitIdx a := by
  obtain ⟨b0, b1, rest, hrest⟩ : ∃ b0 b1 rest, a = b0 :: b1 :: rest := by
    cases a with
    | nil => simp at hlen
    | cons b0 t =>
      cases t with
      | nil => simp at hlen
      | cons b1 rest => exact ⟨b0, b1, rest, rfl⟩
  subst hrest
  have hb1 : (fun b => !is_alpha b) b1 = false := by
    simpa using halpha
  unfold splitIdx
  simp only [List.drop_succ_cons, List.drop_zero]
  rw [position_cons_of_not rest hb1]
  cases position (fun b => !is_alpha b) rest with
  | none => simp
  | some j => simp

theorem splitIdx_le {a : Token} (hlen : 2 < a.length) :
    splitIdx a ≤ a.length - 1 := by
  unfold splitIdx
  cases h : position (fun b => !is_alpha b) (a.drop 1) with
  | none => exact Nat.le.refl
  | some i =>
    have hi := position_some_lt h
    simp only [List.length_drop] at hi
    show i ≤ a.length - 1
    omega

/-! ### `get_next_arg` characterization and measure decrease -/

theorem get_next_arg_nil : get_next_arg [] = none := rfl

theorem get_next_arg_pass {a : Token} (it0 : List Token)
    (h : ¬(2 < a.length ∧ a.getD 0 0 = 45 ∧ is_alpha (a.getD 1 0) = true)) :
    get_next_arg (a :: it0) = some (a, it0) := by
  simp only [get_next_arg, if_neg h]

theorem get_next_arg_cluster {a : Token} (it0 : List Token)
    (h : 2 < a.length ∧ a.getD 0 0 = 45 ∧ is_alpha (a.getD 1 0) = true) :
    get_next_arg (a :: it0) =
      match ((a.drop 1).take (splitIdx a)).map (fun c => [45, c]) ++
          (if ((a.drop 1).drop (splitIdx a)).length ≠ 0
            then ((a.drop 1).drop (splitIdx a)) :: it0 else it0) with
      | [] => none
      | x :: xs => some (x, xs) := by
  simp only [get_next_arg, if_pos h]

theorem cluster_letters_cons {a : Token}
    (hlen : 2 < a.length) (halpha : is_alpha (a.getD 1 0) = true) :
    ∃ c ltl, (a.drop 1).take (splitIdx a) = c :: ltl := by
  have h1 : 1 ≤ splitIdx a := splitIdx_pos hlen halpha
  have h2 : 0 < (a.drop 1).length := by
    simp only [List.length_drop]; omega
  cases hlc : (a.drop 1).take (splitIdx a) with
  | nil =>
    exfalso
    have := congrArg List.length hlc
    simp only [List.length_take, List.length_nil] at this
    omega
  | cons c ltl => exact ⟨c, ltl, rfl⟩

theorem get_next_arg_measure {it it' : List Token} {arg : Token}
    (h : get_next_arg it = some (arg, it')) : qMeasure it' < qMeasure it := by
  match it with
  | [] => simp [get_next_arg] at h
  | a :: it0 =>
    by_cases hc : 2 < a.length ∧ a.getD 0 0 = 45 ∧ is_alpha (a.getD 1 0) = true
    · obtain ⟨c, ltl, hlet⟩ := cluster_letters_cons hc.1 hc.2.2
      rw [get_next_arg_cluster it0 hc, hlet] at h
      simp only [List.map_cons, List.cons_append] at h
      cases h
      -- arg = [45, c], it' = ltl.map _ ++ it1
      have hk1 : 1 ≤ splitIdx a := splitIdx_pos hc.1 hc.2.2
      have hk2 : splitIdx a ≤ a.length - 1 := splitIdx_le hc.1
      have hlL : ltl.length = splitIdx a - 1 := by
        have := congrArg List.length hlet
        simp only [List.length_take, List.length_cons, List.length_drop] at this
        omega
      have hsL : ((a.drop 1).drop (splitIdx a)).length = a.length - 1 - splitIdx a := by
        simp [List.length_drop]
        omega
      set s := ((a.drop 1).drop (splitIdx a)).length with hs
      have hlenEq : a.length = ltl.length + s + 2 := by omega
      have hstep :
          qMeasure (ltl.map (fun c => [45, c])) + (2 ^ s + qMeasure it0) <
            qMeasure (a :: it0) := by
        rw [qMeasure_map_letter, qMeasure_cons, hlenEq]
        have := four_mul_add_two_pow_lt ltl.length s
        omega
      rw [qMeasure_append]
      split
      · rename_i hne
        rw [qMeasure_cons]
        calc qMeasure (ltl.map fun c => [45, c]) + (2 ^ s + qMeasure it0) <
            qMeasure (a :: it0) := hstep
        _ = qMeasure (a :: it0) := rfl
      · rename_i hne
        have hz : s = 0 := by omega
        have h1 : (0:Nat) < 2 ^ s := pow_pos (by norm_num) s
        calc qMeasure (ltl.map fun c => [45, c]) + qMeasure it0 <
            qMeasure (ltl.map fun c => [45, c]) + (2 ^ s + qMeasure it0) := by omega
        _ < qMeasure (a :: it0) := hstep
    · rw [get_next_arg_pass it0 hc] at h
      cases h
      rw [qMeasure_cons]
      have : (0:Nat) < 2 ^ arg.length := pow_pos (by norm_num) _
      omega

theorem get_next_arg_some_ne_nil {it it' : List Token} {arg : Token}
    (h : get_next_arg it = some (arg, it')) : it ≠ [] := by
  intro hnil
  subst hnil
  simp [get_next_arg] at h

/-! ### Fuel irrelevance and loop equations -/

theorem expandAllF_none {it : List Token} (hg : get_next_arg it = none) :
    ∀ n, expandAllF n it = [] := by
  intro n
  cases n with
  | zero => rfl
  | succ n => simp [expandAllF, hg]

theorem expandAllF_congr :
    ∀ n m it, qMeasure it ≤ n → qMeasure it ≤ m → expandAllF n it = expandAllF m it := by
  intro n
  induction n using Nat.strong_induction_on with
  | _ n ih =>
    intro m it hn hm
    cases hg : get_next_arg it with
    | none => rw [expandAllF_none hg, expandAllF_none hg]
    | some x =>
      obtain ⟨arg, it'⟩ := x
      have hpos : 0 < qMeasure it := qMeasure_pos (get_next_arg_some_ne_nil hg)
      obtain ⟨n', rfl⟩ : ∃ n', n = n' + 1 := ⟨n - 1, by omega⟩
      obtain ⟨m', rfl⟩ : ∃ m', m = m' + 1 := ⟨m - 1, by omega⟩
      have hlt := get_next_arg_measure hg
      simp only [expandAllF, hg]
      rw [ih n' (by omega) m' it' (by omega) (by omega)]

theorem expandAll_eq (it : List Token) :
    expandAll it =
      match get_next_arg it with
      | none => []
      | some (arg, it') => arg :: expandAll it' := by
  cases hg : get_next_arg it with
  | none => exact expandAllF_none hg _
  | some x =>
    obtain ⟨arg, it'⟩ := x
    have hpos : 0 < qMeasure it := qMeasure_pos (get_next_arg_some_ne_nil hg)
    have hlt := get_next_arg_measure hg
    unfold expandAll
    obtain ⟨k, hk⟩ : ∃ k, qMeasure it = k + 1 := ⟨qMeasure it - 1, by omega⟩
    rw [hk]
    simp only [expandAllF, hg]
    rw [expandAllF_congr k (qMeasure it') it' (by omega) Nat.le.refl]

/-- The disjunction of every dispatch condition of the `if`/`else`
chain in `Args::parse`, for the given mode: the token shapes the
classifier recognizes. -/
def recognizedTok (sh : Bool) (a : Token) : Prop :=
  (a = tok "--attr" ∨ a = tok "-A") ∨
  a = tok "-I" ∨
  a = tok "--arg" ∨
  a = tok "--argstr" ∨
  a = tok "--option" ∨
  (a = tok "-j" ∨ a = tok "--max-jobs") ∨
  a = tok "--pure" ∨
  a = tok "--impure" ∨
  (a = tok "--packages" ∨ a = tok "-p") ∨
  (a = tok "-i" ∧ sh = true) ∨
  ((a = tok "--run" ∨ a = tok "--command") ∧ sh = false) ∨
  (a = tok "--exec" ∧ sh = false)

/-- The dispatch conditions whose branches call the `next()` helper,
i.e. the recognized flags that consume at least one value token. -/
def valueFlagTok (sh : Bool) (a : Token) : Prop :=
  (a = tok "--attr" ∨ a = tok "-A") ∨
  a = tok "-I" ∨
  a = tok "--arg" ∨
  a = tok "--argstr" ∨
  a = tok "--option" ∨
  (a = tok "-j" ∨ a = tok "--max-jobs") ∨
  (a = tok "-i" ∧ sh = true) ∨
  ((a = tok "--run" ∨ a = tok "--command") ∧ sh = false) ∨
  (a = tok "--exec" ∧ sh = false)

instance recognizedTok.instDec (sh : Bool) (a : Token) : Decidable (recognizedTok sh a) := by
  unfold recognizedTok
  infer_instance

instance valueFlagTok.instDec (sh : Bool) (a : Token) : Decidable (valueFlagTok sh a) := by
  unfold valueFlagTok
  infer_instance

theorem parseStep_measure {sh : Bool} {res r : Args} {arg : Token} {it it2 : List Token}
    (h : parseStep sh res arg it = .ok (.cont r it2)) : qMeasure it2 ≤ qMeasure it := by
  have le1 : ∀ (v : Token) (l : List Token), qMeasure l ≤ qMeasure (v :: l) := fun v l => by
    rw [qMeasure_cons]; exact Nat.le_add_left _ _
  unfold parseStep at h
  by_cases c1 : arg = tok "--attr" ∨ arg = tok "-A"
  · rw [if_pos c1] at h
    cases it with
    | nil => exact Except.noConfusion h
    | cons v l => cases h; exact le1 _ _
  rw [if_neg c1] at h
  by_cases c2 : arg = tok "-I"
  · rw [if_pos c2] at h
    cases it with
    | nil => exact Except.noConfusion h
    | cons v l => cases h; exact le1 _ _
  rw [if_neg c2] at h
  by_cases c3 : arg = tok "--arg"
  · rw [if_pos c3] at h
    cases it with
    | nil => exact Except.noConfusion h
    | cons v1 t =>
      cases t with
      | nil => exact Except.noConfusion h
      | cons v2 l => cases h; exact (le1 _ _).trans (le1 _ _)
  rw [if_neg c3] at h
  by_cases c4 : arg = tok "--argstr"
  · rw [if_pos c4] at h
    cases it with
    | nil => exact Except.noConfusion h
    | cons v1 t =>
      cases t with
      | nil => exact Except.noConfusion h
      | cons v2 l => cases h; exact (le1 _ _).trans (le1 _ _)
  rw [if_neg c4] at h
  by_cases c5 : arg = tok "--option"
  · rw [if_pos c5] at h
    cases it with
    | nil => exact Except.noConfusion h
    | cons v1 t =>
      cases t with
      | nil => exact Except.noConfusion h
      | cons v2 l => cases h; exact (le1 _ _).trans (le1 _ _)
  rw [if_neg c5] at h
  by_cases c6 : arg = tok "-j" ∨ arg = tok "--max-jobs"
  · rw [if_pos c6] at h
    cases it with
    | nil => exact Except.noConfusion h
    | cons v l => cases h; exact le1 _ _
  rw [if_neg c6] at h
  by_cases c7 : arg = tok "--pure"
  · rw [if_pos c7] at h; cases h; exact Nat.le.refl
  rw [if_neg c7] at h
  by_cases c8 : arg = tok "--impure"
  · rw [if_pos c8] at h; cases h; exact Nat.le.refl
  rw [if_neg c8] at h
  by_cases c9 : arg = tok "--packages" ∨ arg = tok "-p"
  · rw [if_pos c9] at h; cases h; exact Nat.le.refl
  rw [if_neg c9] at h
  by_cases c10 : arg = tok "-i" ∧ sh = true
  · rw [if_pos c10] at h
    cases it with
    | nil => exact Except.noConfusion h
    | cons v l => cases h; exact le1 _ _
  rw [if_neg c10] at h
  by_cases c11 : (arg = tok "--run" ∨ arg = tok "--command") ∧ sh = false
  · rw [if_pos c11] at h
    cases it with
    | nil => exact Except.noConfusion h
    | cons v l => cases h; exact le1 _ _
  rw [if_neg c11] at h
  by_cases c12 : arg = tok "--exec" ∧ sh = false
  · rw [if_pos c12] at h
    cases it with
    | nil => exact Except.noConfusion h
    | cons v l =>
      injection h with h2
      exact StepOut.noConfusion h2
  rw [if_neg c12] at h
  by_cases c13 : arg.head? = some 45
  · rw [if_pos c13] at h
    exact Except.noConfusion h
  rw [if_neg c13] at h
  cases h
  exact Nat.le.refl

theorem parseStep_error_shape {sh : Bool} {res : Args} {arg : Token} {it : List Token}
    {e : ParseError} (h : parseStep sh res arg it = .error e) :
    (e = .requiresMore arg ∧ valueFlagTok sh arg) ∨
      (e = .unexpectedArg arg ∧ arg.head? = some 45 ∧ ¬recognizedTok sh arg) := by
  unfold parseStep at h
  by_cases c1 : arg = tok "--attr" ∨ arg = tok "-A"
  · rw [if_pos c1] at h
    cases it with
    | nil => cases h; exact Or.inl ⟨rfl, Or.inl c1⟩
    | cons v l => exact Except.noConfusion h
  rw [if_neg c1] at h
  by_cases c2 : arg = tok "-I"
  · rw [if_pos c2] at h
    cases it with
    | nil => cases h; exact Or.inl ⟨rfl, Or.inr (Or.inl c2)⟩
    | cons v l => exact Except.noConfusion h
  rw [if_neg c2] at h
  by_cases c3 : arg = tok "--arg"
  · rw [if_pos c3] at h
    cases it with
    | nil => cases h; exact Or.inl ⟨rfl, Or.inr (Or.inr (Or.inl c3))⟩
    | cons v1 t =>
      cases t with
      | nil => cases h; exact Or.inl ⟨rfl, Or.inr (Or.inr (Or.inl c3))⟩
      | cons v2 l => exact Except.noConfusion h
  rw [if_neg c3] at h
  by_cases c4 : arg = tok "--argstr"
  · rw [if_pos c4] at h
    cases it with
    | nil => cases h; exact Or.inl ⟨rfl, Or.inr (Or.inr (Or.inr (Or.inl c4)))⟩
    | cons v1 t =>
      cases t with
      | nil => cases h; exact Or.inl ⟨rfl, Or.inr (Or.inr (Or.inr (Or.inl c4)))⟩
      | cons v2 l => exact Except.noConfusion h
  rw [if_neg c4] at h
  by_cases c5 : arg = tok "--option"
  · rw [if_pos c5] at h
    cases it with
    | nil => cases h; exact Or.inl ⟨rfl, Or.inr (Or.inr (Or.inr (Or.inr (Or.inl c5))))⟩
    | cons v1 t =>
      cases t with
      | nil => cases h; exact Or.inl ⟨rfl, Or.inr (Or.inr (Or.inr (Or.inr (Or.inl c5))))⟩
      | cons v2 l => exact Except.noConfusion h
  rw [if_neg c5] at h
  by_cases c6 : arg = tok "-j" ∨ arg = tok "--max-jobs"
  · rw [if_pos c6] at h
    cases it with
    | nil =>
      cases h
      exact Or.inl ⟨rfl, Or.inr (Or.inr (Or.inr (Or.inr (Or.inr (Or.inl c6)))))⟩
    | cons v l => exact Except.noConfusion h
  rw [if_neg c6] at h
  by_cases c7 : arg = tok "--pure"
  · rw [if_pos c7] at h; exact Except.noConfusion h
  rw [if_neg c7] at h
  by_cases c8 : arg = tok "--impure"
  · rw [if_pos c8] at h; exact Except.noConfusion h
  rw [if_neg c8] at h
  by_cases c9 : arg = tok "--packages" ∨ arg = tok "-p"
  · rw [if_pos c9] at h; exact Except.noConfusion h
  rw [if_neg c9] at h
  by_cases c10 : arg = tok "-i" ∧ sh = true
  · rw [if_pos c10] at h
    cases it with
    | nil =>
      cases h
      exact Or.inl ⟨rfl, Or.inr (Or.inr (Or.inr (Or.inr (Or.inr (Or.inr (Or.inl c10))))))⟩
    | cons v l => exact Except.noConfusion h
  rw [if_neg c10] at h
  by_cases c11 : (arg = tok "--run" ∨ arg = tok "--command") ∧ sh = false
  · rw [if_pos c11] at h
    cases it with
    | nil =>
      cases h
      exact Or.inl
        ⟨rfl, Or.inr (Or.inr (Or.inr (Or.inr (Or.inr (Or.inr (Or.inr (Or.inl c11)))))))⟩
    | cons v l => exact Except.noConfusion h
  rw [if_neg c11] at h
  by_cases c12 : arg = tok "--exec" ∧ sh = false
  · rw [if_pos c12] at h
    cases it with
    | nil =>
      cases h
      exact Or.inl
        ⟨rfl, Or.inr (Or.inr (Or.inr (Or.inr (Or.inr (Or.inr (Or.inr (Or.inr c12)))))))⟩
    | cons v l => exact Except.noConfusion h
  rw [if_neg c12] at h
  by_cases c13 : arg.head? = some 45
  · rw [if_pos c13] at h
    cases h
    refine Or.inr ⟨rfl, c13, ?_⟩
    intro hr
    rcases hr with hx | hx | hx | hx | hx | hx | hx | hx | hx | hx | hx | hx
    exacts [c1 hx, c2 hx, c3 hx, c4 hx, c5 hx, c6 hx, c7 hx, c8 hx, c9 hx, c10 hx,
      c11 hx, c12 hx]
  rw [if_neg c13] at h
  exact Except.noConfusion h

theorem parseStep_unrecognized {sh : Bool} {arg : Token} (res : Args) (it : List Token)
    (h45 : arg.head? = some 45) (hnr : ¬recognizedTok sh arg) :
    parseStep sh res arg it = .error (.unexpectedArg arg) := by
  have c1 : ¬(arg = tok "--attr" ∨ arg = tok "-A") := fun hc => hnr (Or.inl hc)
  have c2 : ¬(arg = tok "-I") := fun hc => hnr (Or.inr (Or.inl hc))
  have c3 : ¬(arg = tok "--arg") := fun hc => hnr (Or.inr (Or.inr (Or.inl hc)))
  have c4 : ¬(arg = tok "--argstr") := fun hc => hnr (Or.inr (Or.inr (Or.inr (Or.inl hc))))
  have c5 : ¬(arg = tok "--option") := fun hc =>
    hnr (Or.inr (Or.inr (Or.inr (Or.inr (Or.inl hc)))))
  have c6 : ¬(arg = tok "-j" ∨ arg = tok "--max-jobs") := fun hc =>
    hnr (Or.inr (Or.inr (Or.inr (Or.inr (Or.inr (Or.inl hc))))))
  have c7 : ¬(arg = tok "--pure") := fun hc =>
    hnr (Or.inr (Or.inr (Or.inr (Or.inr (Or.inr (Or.inr (Or.inl hc)))))))
  have c8 : ¬(arg = tok "--impure") := fun hc =>
    hnr (Or.inr (Or.inr (Or.inr (Or.inr (Or.inr (Or.inr (Or.inr (Or.inl hc))))))))
  have c9 : ¬(arg = tok "--packages" ∨ arg = tok "-p") := fun hc =>
    hnr (Or.inr (Or.inr (Or.inr (Or.inr (Or.inr (Or.inr (Or.inr (Or.inr (Or.inl hc)))))))))
  have c10 : ¬(arg = tok "-i" ∧ sh = true) := fun hc =>
    hnr (Or.inr (Or.inr (Or.inr (Or.inr (Or.inr (Or.inr (Or.inr (Or.inr (Or.inr
      (Or.inl hc))))))))))
  have c11 : ¬((arg = tok "--run" ∨ arg = tok "--command") ∧ sh = false) := fun hc =>
    hnr (Or.inr (Or.inr (Or.inr (Or.inr (Or.inr (Or.inr (Or.inr (Or.inr (Or.inr
      (Or.inr (Or.inl hc)))))))))))
  have c12 : ¬(arg = tok "--exec" ∧ sh = false) := fun hc =>
    hnr (Or.inr (Or.inr (Or.inr (Or.inr (Or.inr (Or.inr (Or.inr (Or.inr (Or.inr
      (Or.inr (Or.inr hc)))))))))))
  unfold parseStep
  rw [if_neg c1, if_neg c2, if_neg c3, if_neg c4, if_neg c5, if_neg c6, if_neg c7,
    if_neg c8, if_neg c9, if_neg c10, if_neg c11, if_neg c12, if_pos h45]

theorem parseStep_value_flag_nil {sh : Bool} {arg : Token} (res : Args)
    (hv : valueFlagTok sh arg) :
    parseStep sh res arg [] = .error (.requiresMore arg) := by
  rcases hv with hx | hx | hx | hx | hx | hx | hx | hx | hx
  · rcases hx with rfl | rfl <;> rfl
  · subst hx; rfl
  · subst hx; rfl
  · subst hx; rfl
  · subst hx; rfl
  · rcases hx with rfl | rfl <;> rfl
  · obtain ⟨rfl, rfl⟩ := hx; rfl
  · obtain ⟨hx, rfl⟩ := hx
    rcases hx with rfl | rfl <;> rfl
  · obtain ⟨rfl, rfl⟩ := hx; rfl

theorem head_ne_dash_not_recognized {sh : Bool} {a : Token}
    (h45 : ¬a.head? = some 45) : ¬recognizedTok sh a := by
  intro hr
  rcases hr with hx | hx | hx | hx | hx | hx | hx | hx | hx | hx | hx | hx
  · rcases hx with rfl | rfl <;> exact h45 rfl
  · subst hx; exact h45 rfl
  · subst hx; exact h45 rfl
  · subst hx; exact h45 rfl
  · subst hx; exact h45 rfl
  · rcases hx with rfl | rfl <;> exact h45 rfl
  · subst hx; exact h45 rfl
  · subst hx; exact h45 rfl
  · rcases hx with rfl | rfl <;> exact h45 rfl
  · obtain ⟨rfl, _⟩ := hx; exact h45 rfl
  · obtain ⟨hx, _⟩ := hx
    rcases hx with rfl | rfl <;> exact h45 rfl
  · obtain ⟨rfl, _⟩ := hx; exact h45 rfl

theorem parseStep_nonflag {sh : Bool} {arg : Token} (res : Args) (it : List Token)
    (h45 : ¬arg.head? = some 45) :
    parseStep sh res arg it = .ok (.cont { res with rest := res.rest ++ [arg] } it) := by
  have hnr : ¬recognizedTok sh arg := head_ne_dash_not_recognized h45
  have c1 : ¬(arg = tok "--attr" ∨ arg = tok "-A") := fun hc => hnr (Or.inl hc)
  have c2 : ¬(arg = tok "-I") := fun hc => hnr (Or.inr (Or.inl hc))
  have c3 : ¬(arg = tok "--arg") := fun hc => hnr (Or.inr (Or.inr (Or.inl hc)))
  have c4 : ¬(arg = tok "--argstr") := fun hc => hnr (Or.inr (Or.inr (Or.inr (Or.inl hc))))
  have c5 : ¬(arg = tok "--option") := fun hc =>
    hnr (Or.inr (Or.inr (Or.inr (Or.inr (Or.inl hc)))))
  have c6 : ¬(arg = tok "-j" ∨ arg = tok "--max-jobs") := fun hc =>
    hnr (Or.inr (Or.inr (Or.inr (Or.inr (Or.inr (Or.inl hc))))))
  have c7 : ¬(arg = tok "--pure") := fun hc =>
    hnr (Or.inr (Or.inr (Or.inr (Or.inr (Or.inr (Or.inr (Or.inl hc)))))))
  have c8 : ¬(arg = tok "--impure") := fun hc =>
    hnr (Or.inr (Or.inr (Or.inr (Or.inr (Or.inr (Or.inr (Or.inr (Or.inl hc))))))))
  have c9 : ¬(arg = tok "--packages" ∨ arg = tok "-p") := fun hc =>
    hnr (Or.inr (Or.inr (Or.inr (Or.inr (Or.inr (Or.inr (Or.inr (Or.inr (Or.inl hc)))))))))
  have c10 : ¬(arg = tok "-i" ∧ sh = true) := fun hc =>
    hnr (Or.inr (Or.inr (Or.inr (Or.inr (Or.inr (Or.inr (Or.inr (Or.inr (Or.inr
      (Or.inl hc))))))))))
  have c11 : ¬((arg = tok "--run" ∨ arg = tok "--command") ∧ sh = false) := fun hc =>
    hnr (Or.inr (Or.inr (Or.inr (Or.inr (Or.inr (Or.inr (Or.inr (Or.inr (Or.inr
      (Or.inr (Or.inl hc)))))))))))
  have c12 : ¬(arg = tok "--exec" ∧ sh = false) := fun hc =>
    hnr (Or.inr (Or.inr (Or.inr (Or.inr (Or.inr (Or.inr (Or.inr (Or.inr (Or.inr
      (Or.inr (Or.inr hc)))))))))))
  unfold parseStep
  rw [if_neg c1, if_neg c2, if_neg c3, if_neg c4, if_neg c5, if_neg c6, if_neg c7,
    if_neg c8, if_neg c9, if_neg c10, if_neg c11, if_neg c12, if_neg h45]

theorem get_next_arg_nonflag {a : Token} (q : List Token) (h45 : ¬a.head? = some 45) :
    get_next_arg (a :: q) = some (a, q) := by
  apply get_next_arg_pass
  rintro ⟨hl, h0, _⟩
  cases a with
  | nil => simp at hl
  | cons x xs =>
    apply h45
    have hx : x = 45 := by simpa using h0
    simp [hx]

theorem parseLoopF_none {sh : Bool} {res : Args} {it : List Token}
    (hg : get_next_arg it = none) : ∀ n, parseLoopF sh n res it = .ok res := by
  intro n
  cases n with
  | zero => rfl
  | succ n => simp [parseLoopF, hg]

theorem parseLoopF_congr :
    ∀ n m (sh : Bool) (res : Args) it, qMeasure it ≤ n → qMeasure it ≤ m →
      parseLoopF sh n res it = parseLoopF sh m res it := by
  intro n
  induction n using Nat.strong_induction_on with
  | _ n ih =>
    intro m sh res it hn hm
    cases hg : get_next_arg it with
    | none => rw [parseLoopF_none hg, parseLoopF_none hg]
    | some x =>
      obtain ⟨arg, it'⟩ := x
      have hpos : 0 < qMeasure it := qMeasure_pos (get_next_arg_some_ne_nil hg)
      obtain ⟨n', rfl⟩ : ∃ n', n = n' + 1 := ⟨n - 1, by omega⟩
      obtain ⟨m', rfl⟩ : ∃ m', m = m' + 1 := ⟨m - 1, by omega⟩
      have hlt := get_next_arg_measure hg
      simp only [parseLoopF, hg]
      cases hs : parseStep sh res arg it' with
      | error e => rfl
      | ok out =>
        cases out with
        | done r => rfl
        | cont r it2 =>
          have hle := parseStep_measure hs
          exact ih n' (by omega) m' sh r it2 (by omega) (by omega)

theorem parseLoop_eq (sh : Bool) (res : Args) (it : List Token) :
    parseLoop sh res it =
      match get_next_arg it with
      | none => .ok res
      | some (arg, it') =>
        match parseStep sh res arg it' with
        | .error e => .error e
        | .ok (.done r) => .ok r
        | .ok (.cont r it2) => parseLoop sh r it2 := by
  cases hg : get_next_arg it with
  | none => exact parseLoopF_none hg _
  | some x =>
    obtain ⟨arg, it'⟩ := x
    have hpos : 0 < qMeasure it := qMeasure_pos (get_next_arg_some_ne_nil hg)
    have hlt := get_next_arg_measure hg
    unfold parseLoop
    obtain ⟨k, hk⟩ : ∃ k, qMeasure it = k + 1 := ⟨qMeasure it - 1, by omega⟩
    rw [hk]
    simp only [parseLoopF, hg]
    cases hs : parseStep sh res arg it' with
    | error e => rfl
    | ok out =>
      cases out with
      | done r => rfl
      | cont r it2 =>
        have hle := parseStep_measure hs
        exact parseLoopF_congr k (qMeasure it2) sh r it2 (by omega) Nat.le.refl

theorem parseLoopF_error_shape :
    ∀ n (sh : Bool) (res : Args) (it : List Token) {e : ParseError},
      parseLoopF sh n res it = .error e →
      (∃ f, e = .requiresMore f ∧ valueFlagTok sh f) ∨
        (∃ a, e = .unexpectedArg a ∧ a.head? = some 45 ∧ ¬recognizedTok sh a) := by
  intro n
  induction n with
  | zero =>
    intro sh res it e h
    exact Except.noConfusion h
  | succ n ih =>
    intro sh res it e h
    cases hg : get_next_arg it with
    | none =>
      simp only [parseLoopF, hg] at h
      exact Except.noConfusion h
    | some x =>
      obtain ⟨arg, it'⟩ := x
      simp only [parseLoopF, hg] at h
      cases hs : parseStep sh res arg it' with
      | error e2 =>
        simp only [hs] at h
        cases h
        rcases parseStep_error_shape hs with ⟨he, hv⟩ | ⟨he, h45, hnr⟩
        · exact Or.inl ⟨arg, he, hv⟩
        · exact Or.inr ⟨arg, he, h45, hnr⟩
      | ok out =>
        simp only [hs] at h
        cases out with
        | done r => exact Except.noConfusion h
        | cont r it2 => exact ih sh r it2 h

/-! ### Run-assignment counting

`parseStep` assigns the `run` field exactly in the two branches guarded
by `(arg = "--run" ∨ arg = "--command") ∧ !in_shebang` and
`arg = "--exec" ∧ !in_shebang`, and a dispatched token reaches one of
those branches exactly when the corresponding condition holds.  The
instrumented loop below therefore counts assignments of `run` during a
parse by adding `runFlagIncr` at each dispatched token; its first
component is proved to coincide with `parseLoopF`. -/

/-- 1 when dispatching `arg` assigns the `run` field, 0 otherwise. -/
def runFlagIncr (sh : Bool) (arg : Token) : Nat :=
  if ((arg = tok "--run" ∨ arg = tok "--command") ∧ sh = false) ∨
      (arg = tok "--exec" ∧ sh = false) then 1 else 0

/-- `parseLoopF` instrumented with the number of `run` assignments. -/
def parseLoopCF (sh : Bool) : Nat → Args → Nat → List Token → Except ParseError (Args × Nat)
  | 0, res, c, _ => .ok (res, c)
  | fuel + 1, res, c, it =>
    match get_next_arg it with
    | none => .ok (res, c)
    | some (arg, it') =>
      match parseStep sh res arg it' with
      | .error e => .error e
      | .ok (.done r) => .ok (r, c + runFlagIncr sh arg)
      | .ok (.cont r it2) => parseLoopCF sh fuel r (c + runFlagIncr sh arg) it2

theorem parseLoopCF_fst :
    ∀ n (sh : Bool) (res : Args) (c : Nat) (it : List Token),
      (parseLoopCF sh n res c it).map Prod.fst = parseLoopF sh n res it := by
  intro n
  induction n with
  | zero => intros; rfl
  | succ n ih =>
    intro sh res c it
    cases hg : get_next_arg it with
    | none => simp only [parseLoopCF, parseLoopF, hg]; rfl
    | some x =>
      obtain ⟨arg, it'⟩ := x
      simp only [parseLoopCF, parseLoopF, hg]
      cases hs : parseStep sh res arg it' with
      | error e => simp only [hs]; rfl
      | ok out =>
        cases out with
        | done r => simp only [hs]; rfl
        | cont r it2 =>
          simp only [hs]
          exact ih sh r (c + runFlagIncr sh arg) it2

theorem parseLoopCF_none {sh : Bool} {res : Args} {c : Nat} {it : List Token}
    (hg : get_next_arg it = none) : ∀ n, parseLoopCF sh n res c it = .ok (res, c) := by
  intro n
  cases n with
  | zero => rfl
  | succ n => simp [parseLoopCF, hg]

theorem parseLoopCF_congr :
    ∀ n m (sh : Bool) (res : Args) (c : Nat) it, qMeasure it ≤ n → qMeasure it ≤ m →
      parseLoopCF sh n res c it = parseLoopCF sh m res c it := by
  intro n
  induction n using Nat.strong_induction_on with
  | _ n ih =>
    intro m sh res c it hn hm
    cases hg : get_next_arg it with
    | none => rw [parseLoopCF_none hg, parseLoopCF_none hg]
    | some x =>
      obtain ⟨arg, it'⟩ := x
      have hpos : 0 < qMeasure it := qMeasure_pos (get_next_arg_some_ne_nil hg)
      obtain ⟨n', rfl⟩ : ∃ n', n = n' + 1 := ⟨n - 1, by omega⟩
      obtain ⟨m', rfl⟩ : ∃ m', m = m' + 1 := ⟨m - 1, by omega⟩
      have hlt := get_next_arg_measure hg
      simp only [parseLoopCF, hg]
      cases hs : parseStep sh res arg it' with
      | error e => rfl
      | ok out =>
        cases out with
        | done r => rfl
        | cont r it2 =>
          have hle := parseStep_measure hs
          exact ih n' (by omega) m' sh r _ it2 (by omega) (by omega)

/-- The counting loop started on an arbitrary intermediate state. -/
def parseLoopC (sh : Bool) (res : Args) (c : Nat) (it : List Token) :
    Except ParseError (Args × Nat) :=
  parseLoopCF sh (qMeasure it) res c it

/-- `Args::parse` instrumented with the number of `run` assignments. -/
def parseCount (args : List Token) (sh : Bool) : Except ParseError (Args × Nat) :=
  parseLoopC sh initArgs 0 args

theorem parseLoopC_eq (sh : Bool) (res : Args) (c : Nat) (it : List Token) :
    parseLoopC sh res c it =
      match get_next_arg it with
      | none => .ok (res, c)
      | some (arg, it') =>
        match parseStep sh res arg it' with
        | .error e => .error e
        | .ok (.done r) => .ok (r, c + runFlagIncr sh arg)
        | .ok (.cont r it2) => parseLoopC sh r (c + runFlagIncr sh arg) it2 := by
  cases hg : get_next_arg it with
  | none => exact parseLoopCF_none hg _
  | some x =>
    obtain ⟨arg, it'⟩ := x
    have hpos : 0 < qMeasure it := qMeasure_pos (get_next_arg_some_ne_nil hg)
    have hlt := get_next_arg_measure hg
    unfold parseLoopC
    obtain ⟨k, hk⟩ : ∃ k, qMeasure it = k + 1 := ⟨qMeasure it - 1, by omega⟩
    rw [hk]
    simp only [parseLoopCF, hg]
    cases hs : parseStep sh res arg it' with
    | error e => rfl
    | ok out =>
      cases out with
      | done r => rfl
      | cont r it2 =>
        have hle := parseStep_measure hs
        exact parseLoopCF_congr k (qMeasure it2) sh r _ it2 (by omega) Nat.le.refl

theorem parseCount_fst (args : List Token) (sh : Bool) :
    (parseCount args sh).map Prod.fst = Args.parse args sh :=
  parseLoopCF_fst (qMeasure args) sh initArgs 0 args

/-! ### Remaining expansion helpers -/

theorem get_next_arg_cluster_single {t : Token}
    (hc : 2 < t.length ∧ t.getD 0 0 = 45 ∧ is_alpha (t.getD 1 0) = true)
    {c : Nat} {ltl : List Nat} (hlet : (t.drop 1).take (splitIdx t) = c :: ltl)
    (it0 : List Token) :
    get_next_arg (t :: it0) =
      some ([45, c], ltl.map (fun x => [45, x]) ++
        (if ((t.drop 1).drop (splitIdx t)).length ≠ 0
          then ((t.drop 1).drop (splitIdx t)) :: it0 else it0)) := by
  rw [get_next_arg_cluster it0 hc, hlet]
  simp only [List.map_cons, List.cons_append]

theorem expandAll_passthrough :
    ∀ l : List Token,
      (∀ t ∈ l, ¬(2 < t.length ∧ t.getD 0 0 = 45 ∧ is_alpha (t.getD 1 0) = true)) →
      expandAll l = l := by
  intro l
  induction l with
  | nil => intro _; rfl
  | cons t ts ih =>
    intro h
    rw [expandAll_eq, get_next_arg_pass ts (h t (List.mem_cons_self t ts))]
    show t :: expandAll ts = t :: ts
    rw [ih (fun x hx => h x (List.mem_cons_of_mem _ hx))]

theorem parseLoop_step {sh : Bool} {res : Args} {arg : Token} {it' : List Token}
    (it : List Token) (hg : get_next_arg it = some (arg, it')) :
    parseLoop sh res it =
      match parseStep sh res arg it' with
      | .error e => .error e
      | .ok (.done r) => .ok r
      | .ok (.cont r it2) => parseLoop sh r it2 := by
  rw [parseLoop_eq, hg]

theorem parseLoopC_step {sh : Bool} {res : Args} {c : Nat} {arg : Token} {it' : List Token}
    (it : List Token) (hg : get_next_arg it = some (arg, it')) :
    parseLoopC sh res c it =
      match parseStep sh res arg it' with
      | .error e => .error e
      | .ok (.done r) => .ok (r, c + runFlagIncr sh arg)
      | .ok (.cont r it2) => parseLoopC sh r (c + runFlagIncr sh arg) it2 := by
  rw [parseLoopC_eq, hg]

/-! ### The claims -/

/-- Claim C1, counterexample: expanding the cluster-shaped token
`"-a-bc"` (letters prefix `"a"`, suffix `"-bc"`) does not yield the
suffix as its own standalone token, because the re-queued suffix is
itself cluster-shaped and is split again on the next call; the claim's
predicted output `["-a", "-bc"]` is wrong. -/
theorem claim_c1_counterexample :
    expandAll [tok "-a-bc"] = [tok "-a", tok "-b", tok "-c"] ∧
      expandAll [tok "-a-bc"] ≠ [tok "-a", tok "-bc"] := by
  constructor
  · decide
  · decide

/-- Claim C1, amended: for every token of cluster shape whose suffix
(the bytes from the split index on) is not itself of cluster shape,
repeated expansion yields one two-character dash-letter token per
letter of the prefix, in original order, followed (if the suffix is
non-empty) by the suffix as its own standalone token. -/
theorem claim_c1_amended (t : Token) (h1 : 2 < t.length) (h2 : t.getD 0 0 = 45)
    (h3 : is_alpha (t.getD 1 0) = true)
    (h4 : ¬(2 < ((t.drop 1).drop (splitIdx t)).length ∧
        ((t.drop 1).drop (splitIdx t)).getD 0 0 = 45 ∧
        is_alpha (((t.drop 1).drop (splitIdx t)).getD 1 0) = true)) :
    expandAll [t] =
      ((t.drop 1).take (splitIdx t)).map (fun c => [45, c]) ++
        (if (t.drop 1).drop (splitIdx t) = [] then []
          else [(t.drop 1).drop (splitIdx t)]) := by
  obtain ⟨c, ltl, hlet⟩ := cluster_letters_cons h1 h3
  rw [expandAll_eq, get_next_arg_cluster_single ⟨h1, h2, h3⟩ hlet []]
  show [45, c] :: expandAll _ = _
  rw [expandAll_passthrough _ ?side, hlet]
  case side =>
    intro x hx
    rcases List.mem_append.mp hx with hx | hx
    · obtain ⟨y, _, rfl⟩ := List.mem_map.mp hx
      rintro ⟨hl, -, -⟩
      simp at hl
    · by_cases hs0 : ((t.drop 1).drop (splitIdx t)).length ≠ 0
      · rw [if_pos hs0] at hx
        rcases List.mem_cons.mp hx with rfl | hx
        · exact h4
        · simp at hx
      · rw [if_neg hs0] at hx
        simp at hx
  by_cases hs0 : (t.drop 1).drop (splitIdx t) = []
  · rw [if_pos hs0, if_neg (by rw [hs0]; simp)]
    simp
  · rw [if_neg hs0, if_pos (fun h0 => hs0 (List.length_eq_zero.mp h0))]
    simp

/-- Witness for claim C1 amended, at the spec's own example `"-pj16"`. -/
theorem claim_c1_amended_witness :
    expandAll [tok "-pj16"] = [tok "-p", tok "-j", tok "16"] :=
  (claim_c1_amended (tok "-pj16") (by decide) (by decide) (by decide) (by decide)).trans
    (by decide)

/-- Claim C2: when the scan over the bytes after the dash finds no
non-letter, the split index used by the expander is the token length
minus one (the index of the token's last byte); and the spec's examples
`"-j16"` → `["-j", "16"]`, `"-j4"` → `["-j", "4"]` hold. -/
theorem claim_c2 :
    (∀ t : Token, 2 < t.length → t.getD 0 0 = 45 → is_alpha (t.getD 1 0) = true →
        (∀ b ∈ t.drop 1, is_alpha b = true) → splitIdx t = t.length - 1) ∧
      expandAll [tok "-j16"] = [tok "-j", tok "16"] ∧
      expandAll [tok "-j4"] = [tok "-j", tok "4"] := by
  refine ⟨?_, by decide, by decide⟩
  intro t _ _ _ hall
  unfold splitIdx
  rw [position_eq_none_of_all (fun x hx => by simpa using hall x hx)]

/-- Witness for claim C2, at the all-letter cluster `"-ab"`. -/
theorem claim_c2_witness :
    splitIdx (tok "-ab") = (tok "-ab").length - 1 ∧
      expandAll [tok "-j16"] = [tok "-j", tok "16"] :=
  ⟨claim_c2.1 (tok "-ab") (by decide) (by decide) (by decide) (by decide), claim_c2.2.1⟩

/-- Claim C3: with `in_shebang = false`, dispatching `--exec` consumes
the next token as the program, sets `run` to `Exec` of that program and
the entire remaining queue verbatim, and ends the loop at once, with no
further token classified; in particular the spec's example holds and
`pure` stays `false` even though `--pure` follows `--exec`. -/
theorem claim_c3 :
    (∀ (res : Args) (v : Token) (q : List Token),
        parseLoop false res (tok "--exec" :: v :: q) = .ok { res with run := .Exec v q }) ∧
      Args.parse [tok "--exec", tok "foo", tok "--pure", tok "bar"] false =
        .ok { initArgs with run := .Exec (tok "foo") [tok "--pure", tok "bar"] } := by
  refine ⟨?_, rfl⟩
  intro res v q
  rw [parseLoop_step (tok "--exec" :: v :: q) rfl]
  rfl

/-- Claim C4: the parser fails only through the two error constructors,
each carrying the offending token: `requiresMore` only for a recognized
value-consuming flag of the current mode, and `unexpectedArg` only for
a dispatched token that begins with a dash yet matches no recognized
flag; conversely such tokens do error when dispatched, as does a
value-consuming flag dispatched with nothing left in the queue. -/
theorem claim_c4 :
    (∀ (args : List Token) (sh : Bool),
        match Args.parse args sh with
        | .ok _ => True
        | .error (.requiresMore f) => valueFlagTok sh f
        | .error (.unexpectedArg a) => a.head? = some 45 ∧ ¬recognizedTok sh a) ∧
      (∀ (sh : Bool) (res : Args) (arg : Token) (it : List Token),
        arg.head? = some 45 → ¬recognizedTok sh arg →
          parseStep sh res arg it = .error (.unexpectedArg arg)) ∧
      (∀ (sh : Bool) (res : Args) (arg : Token),
        valueFlagTok sh arg → parseStep sh res arg [] = .error (.requiresMore arg)) := by
  refine ⟨?_, fun sh res arg it h45 hnr => parseStep_unrecognized res it h45 hnr,
    fun sh res arg hv => parseStep_value_flag_nil res hv⟩
  intro args sh
  cases hp : Args.parse args sh with
  | ok a => trivial
  | error e =>
    rcases parseLoopF_error_shape (qMeasure args) sh initArgs args hp with
      ⟨f, rfl, hv⟩ | ⟨a, rfl, h45, hnr⟩
    · exact hv
    · exact ⟨h45, hnr⟩

/-- Witness for claim C4, at an unrecognized dashed token and at a
value-consuming flag with an empty queue. -/
theorem claim_c4_witness :
    parseStep false initArgs (tok "--frobnicate") [] =
        .error (.unexpectedArg (tok "--frobnicate")) ∧
      parseStep false initArgs (tok "--attr") [] = .error (.requiresMore (tok "--attr")) :=
  ⟨claim_c4.2.1 false initArgs (tok "--frobnicate") [] (by decide) (by decide),
    claim_c4.2.2 false initArgs (tok "--attr") (by decide)⟩

/-- Claim C5: `-i` consumes one value and sets `interpreter` only in
shebang mode; outside shebang mode it falls through to the
unrecognized-flag error; symmetrically `--run`, `--command`, and
`--exec` are parse errors when dispatched in shebang mode. -/
theorem claim_c5 :
    Args.parse [tok "-i", tok "zsh"] true = .ok { initArgs with interpreter := tok "zsh" } ∧
      Args.parse [tok "-i", tok "zsh"] false = .error (.unexpectedArg (tok "-i")) ∧
      (∀ (res : Args) (q : List Token),
        parseLoop true res (tok "--run" :: q) = .error (.unexpectedArg (tok "--run"))) ∧
      (∀ (res : Args) (q : List Token),
        parseLoop true res (tok "--command" :: q) =
          .error (.unexpectedArg (tok "--command"))) ∧
      (∀ (res : Args) (q : List Token),
        parseLoop true res (tok "--exec" :: q) = .error (.unexpectedArg (tok "--exec"))) := by
  refine ⟨rfl, rfl, ?_, ?_, ?_⟩
  · intro res q
    rw [parseLoop_step (tok "--run" :: q) rfl]
    rfl
  · intro res q
    rw [parseLoop_step (tok "--command" :: q) rfl]
    rfl
  · intro res q
    rw [parseLoop_step (tok "--exec" :: q) rfl]
    rfl

/-- Claim C6: `pure` defaults to `false`; every dispatched `--pure`
sets it `true` and every dispatched `--impure` sets it `false`, so the
last of the two flags wins, as in the spec's two examples. -/
theorem claim_c6 :
    (∀ (sh : Bool) (res : Args) (q : List Token),
        parseLoop sh res (tok "--pure" :: q) = parseLoop sh { res with pure := true } q) ∧
      (∀ (sh : Bool) (res : Args) (q : List Token),
        parseLoop sh res (tok "--impure" :: q) = parseLoop sh { res with pure := false } q) ∧
      initArgs.pure = false ∧
      Args.parse [tok "--pure", tok "--impure"] false = .ok { initArgs with pure := false } ∧
      Args.parse [tok "--impure", tok "--pure"] false = .ok { initArgs with pure := true } := by
  refine ⟨?_, ?_, rfl, rfl, rfl⟩
  · intro sh res q
    rw [parseLoop_step (tok "--pure" :: q) rfl]
    rfl
  · intro sh res q
    rw [parseLoop_step (tok "--impure" :: q) rfl]
    rfl

/-- Claim C7: every dispatched pass-through flag appends its canonical
name immediately followed by its consumed value token(s) to `other_kw`
(`--attr`/`-A` canonicalize to `-A`, `-I` stays `-I`, `--arg`,
`--argstr` and `--option` keep their names with both values,
`-j`/`--max-jobs` canonicalize to `--max-jobs`), dispatched non-flag
tokens are appended to `rest` in encounter order, and a token consumed
as a flag value never reaches `rest` (the step equations hand the
remaining queue past the consumed values straight to the loop), as in
the spec's example. -/
theorem claim_c7 :
    (∀ (sh : Bool) (res : Args) (v : Token) (q : List Token),
        parseLoop sh res (tok "-A" :: v :: q) =
          parseLoop sh { res with other_kw := res.other_kw ++ [tok "-A", v] } q) ∧
      (∀ (sh : Bool) (res : Args) (v : Token) (q : List Token),
        parseLoop sh res (tok "--attr" :: v :: q) =
          parseLoop sh { res with other_kw := res.other_kw ++ [tok "-A", v] } q) ∧
      (∀ (sh : Bool) (res : Args) (v : Token) (q : List Token),
        parseLoop sh res (tok "-I" :: v :: q) =
          parseLoop sh { res with other_kw := res.other_kw ++ [tok "-I", v] } q) ∧
      (∀ (sh : Bool) (res : Args) (v1 v2 : Token) (q : List Token),
        parseLoop sh res (tok "--arg" :: v1 :: v2 :: q) =
          parseLoop sh { res with other_kw := res.other_kw ++ [tok "--arg", v1, v2] } q) ∧
      (∀ (sh : Bool) (res : Args) (v1 v2 : Token) (q : List Token),
        parseLoop sh res (tok "--argstr" :: v1 :: v2 :: q) =
          parseLoop sh { res with other_kw := res.other_kw ++ [tok "--argstr", v1, v2] } q) ∧
      (∀ (sh : Bool) (res : Args) (v1 v2 : Token) (q : List Token),
        parseLoop sh res (tok "--option" :: v1 :: v2 :: q) =
          parseLoop sh { res with other_kw := res.other_kw ++ [tok "--option", v1, v2] } q) ∧
      (∀ (sh : Bool) (res : Args) (v : Token) (q : List Token),
        parseLoop sh res (tok "-j" :: v :: q) =
          parseLoop sh { res with other_kw := res.other_kw ++ [tok "--max-jobs", v] } q) ∧
      (∀ (sh : Bool) (res : Args) (v : Token) (q : List Token),
        parseLoop sh res (tok "--max-jobs" :: v :: q) =
          parseLoop sh { res with other_kw := res.other_kw ++ [tok "--max-jobs", v] } q) ∧
      (∀ (sh : Bool) (res : Args) (a : Token) (q : List Token), ¬a.head? = some 45 →
        parseLoop sh res (a :: q) = parseLoop sh { res with rest := res.rest ++ [a] } q) ∧
      Args.parse [tok "-A", tok "x", tok "pkg.nix"] false =
        .ok { initArgs with rest := [tok "pkg.nix"], other_kw := [tok "-A", tok "x"] } := by
  refine ⟨?_, ?_, ?_, ?_, ?_, ?_, ?_, ?_, ?_, rfl⟩
  · intro sh res v q
    rw [parseLoop_step (tok "-A" :: v :: q) rfl]
    rfl
  · intro sh res v q
    rw [parseLoop_step (tok "--attr" :: v :: q) rfl]
    rfl
  · intro sh res v q
    rw [parseLoop_step (tok "-I" :: v :: q) rfl]
    rfl
  · intro sh res v1 v2 q
    rw [parseLoop_step (tok "--arg" :: v1 :: v2 :: q) rfl]
    rfl
  · intro sh res v1 v2 q
    rw [parseLoop_step (tok "--argstr" :: v1 :: v2 :: q) rfl]
    rfl
  · intro sh res v1 v2 q
    rw [parseLoop_step (tok "--option" :: v1 :: v2 :: q) rfl]
    rfl
  · intro sh res v q
    rw [parseLoop_step (tok "-j" :: v :: q) rfl]
    rfl
  · intro sh res v q
    rw [parseLoop_step (tok "--max-jobs" :: v :: q) rfl]
    rfl
  · intro sh res a q h45
    rw [parseLoop_step (a :: q) (get_next_arg_nonflag q h45), parseStep_nonflag res q h45]

/-- Witness for claim C7, pushing the non-flag token `"pkg.nix"` onto
`rest`. -/
theorem claim_c7_witness :
    parseLoop false initArgs [tok "pkg.nix"] =
      parseLoop false { initArgs with rest := initArgs.rest ++ [tok "pkg.nix"] } [] :=
  claim_c7.2.2.2.2.2.2.2.2.1 false initArgs (tok "pkg.nix") [] (by decide)

/-- Claim C8, counterexample: parsing `["--run", "a", "--run", "b"]`
assigns the `run` field twice (the second `Shell` assignment overwrites
the first), so the `run` field is not assigned at most once. -/
theorem claim_c8_counterexample :
    parseCount [tok "--run", tok "a", tok "--run", tok "b"] false =
        .ok ({ initArgs with run := .Shell (tok "b") }, 2) ∧
      ¬(2 ≤ 1) := ⟨rfl, by decide⟩

/-- Claim C8, amended: the `run` field is assigned once per dispatched
run-mode flag — so possibly several times, later assignments
overwriting earlier ones — and setting `Exec` is always the last
classification action: the loop returns immediately after it. -/
theorem claim_c8_amended :
    (∀ (res : Args) (c : Nat) (v : Token) (q : List Token),
        parseLoopC false res c (tok "--run" :: v :: q) =
          parseLoopC false { res with run := .Shell v } (c + 1) q) ∧
      (∀ (res : Args) (c : Nat) (v : Token) (q : List Token),
        parseLoopC false res c (tok "--command" :: v :: q) =
          parseLoopC false { res with run := .Shell v } (c + 1) q) ∧
      (∀ (res : Args) (c : Nat) (v : Token) (q : List Token),
        parseLoopC false res c (tok "--exec" :: v :: q) =
          .ok ({ res with run := .Exec v q }, c + 1)) ∧
      (∀ (args : List Token) (sh : Bool),
        (parseCount args sh).map Prod.fst = Args.parse args sh) := by
  refine ⟨?_, ?_, ?_, fun args sh => parseCount_fst args sh⟩
  · intro res c v q
    rw [parseLoopC_step (tok "--run" :: v :: q) rfl]
    rfl
  · intro res c v q
    rw [parseLoopC_step (tok "--command" :: v :: q) rfl]
    rfl
  · intro res c v q
    rw [parseLoopC_step (tok "--exec" :: v :: q) rfl]
    rfl

/-- Claim C9: the token `--` gets no special treatment: the expander
passes it through unchanged (its length is 2), and whenever it is
dispatched the classifier reaches the unexpected-arg error, as it
starts with a dash and matches no recognized flag. -/
theorem claim_c9 :
    (∀ q : List Token, get_next_arg (tok "--" :: q) = some (tok "--", q)) ∧
      (∀ (sh : Bool) (res : Args) (q : List Token),
        parseLoop sh res (tok "--" :: q) = .error (.unexpectedArg (tok "--"))) ∧
      Args.parse [tok "--"] false = .error (.unexpectedArg (tok "--")) := by
  refine ⟨fun q => rfl, ?_, rfl⟩
  intro sh res q
  rw [parseLoop_step (tok "--" :: q) rfl]
  rfl

/-- Claim C10: `get_next_arg` is total and in-bounds: it returns `none`
exactly on the empty queue and `some` on every non-empty queue; for
every cluster-shaped token the split index is at most the length of the
sliced byte sequence `argb[1..]` (so `split_at` is in bounds), the
token length minus one equals that slice's length, and the letters
prefix is non-empty (so the final `pop_front` succeeds). -/
theorem claim_c10 :
    (∀ it : List Token, (get_next_arg it = none ↔ it = []) ∧
        (it ≠ [] → (get_next_arg it).isSome = true)) ∧
      (∀ t : Token, (t.drop 1).length = t.length - 1) ∧
      (∀ t : Token, 2 < t.length → t.getD 0 0 = 45 → is_alpha (t.getD 1 0) = true →
        splitIdx t ≤ (t.drop 1).length ∧ (t.drop 1).take (splitIdx t) ≠ []) := by
  have hsome : ∀ (a : Token) (it0 : List Token), ∃ x, get_next_arg (a :: it0) = some x := by
    intro a it0
    by_cases hc : 2 < a.length ∧ a.getD 0 0 = 45 ∧ is_alpha (a.getD 1 0) = true
    · obtain ⟨c, ltl, hlet⟩ := cluster_letters_cons hc.1 hc.2.2
      exact ⟨_, get_next_arg_cluster_single hc hlet it0⟩
    · exact ⟨(a, it0), get_next_arg_pass it0 hc⟩
  refine ⟨?_, fun t => by simp, ?_⟩
  · intro it
    cases it with
    | nil => exact ⟨⟨fun _ => rfl, fun _ => rfl⟩, fun h => absurd rfl h⟩
    | cons a it0 =>
      obtain ⟨x, hx⟩ := hsome a it0
      constructor
      · rw [hx]
        exact ⟨fun h => Option.noConfusion h, fun h => List.noConfusion h⟩
      · intro _
        rw [hx]
        rfl
  · intro t h1 h2 h3
    constructor
    · have := splitIdx_le h1
      simpa [List.length_drop] using this
    · obtain ⟨c, ltl, hlet⟩ := cluster_letters_cons h1 h3
      rw [hlet]
      exact List.noConfusion

/-- Witness for claim C10, at the spec's example cluster `"-pj16"` and
the empty and singleton queues. -/
theorem claim_c10_witness :
    (get_next_arg [] = none ↔ ([] : List Token) = []) ∧
      splitIdx (tok "-pj16") ≤ ((tok "-pj16").drop 1).length ∧
      ((tok "-pj16").drop 1).take (splitIdx (tok "-pj16")) ≠ [] :=
  ⟨(claim_c10.1 []).1, claim_c10.2.2 (tok "-pj16") (by decide) (by decide) (by decide)⟩

end CachedNixShell
